import Mathlib

/-!
Shallow embedding of the zutto-editor core (src/src/tab/buffer.rs, src/src/lib.rs,
src/src/key.rs) together with proofs about the behaviour of its operations.

Machine-integer conventions: usize values are modelled as Nat, with explicit
wrapping (mod 2^64) at the single place the source can underflow a usize
subtraction; u16 values (row/column as returned by get_row/get_col, which the
source accumulates in or casts to u16) are modelled as Nat reduced mod 2^16,
matching release-mode wrapping semantics.  Text is a list of Unicode scalar
values, matching the rope's character sequence.
-/

namespace ZE

/-- The wide-continuation sentinel character 0x01 used after double-cell glyphs. -/
def x01 : Char := Char.ofNat 1

/-- The tab-continuation sentinel character 0x02 used after tab characters. -/
def x02 : Char := Char.ofNat 2

/-- Placeholder character used for the (never relevant) default of list indexing. -/
def nul : Char := Char.ofNat 0

/-- usize wrapping subtraction of 1, as in release-mode Rust. -/
def usub1 (n : Nat) : Nat := (n + (2 ^ 64 - 1)) % 2 ^ 64

/-- is_hangul from buffer.rs: strict bounds on both Hangul blocks. -/
def is_hangul (c : Char) : Bool :=
  (0xAC00 < c.toNat && c.toNat < 0xD7AF) || (0x3130 < c.toNat && c.toNat < 0x318E)

/-- TabType from lib.rs. -/
inductive TabTy where
  | space : TabTy
  | tab : TabTy
deriving DecidableEq, Repr

/-- The fields of Setting that the buffer operations consult. -/
structure SettingE where
  tabSize : Nat
  tabType : TabTy
deriving DecidableEq, Repr

/-- Camera from buffer.rs (u16 row/col viewport origin, modelled as Nat). -/
structure CameraE where
  row : Nat
  col : Nat
deriving DecidableEq, Repr

/-- The state of Buffer from buffer.rs that the logical operations read and write:
rope text, cursor index, camera, region size, path, saved flag and settings. -/
structure Buf where
  text : List Char
  cursor : Nat
  camera : CameraE
  width : Nat
  height : Nat
  path : Option (List Char)
  saved : Bool
  setting : SettingE
deriving DecidableEq, Repr

/-- get_row from buffer.rs: newline count strictly before the cursor, accumulated
in a u16, hence reduced mod 2^16. -/
def row_cnt (text : List Char) (i : Nat) : Nat :=
  ((text.take i).count '\n') % 65536

/-- get_row_start from buffer.rs: one past the last newline strictly before
index i (0 when there is none), computed by the source's enumerate-and-record
scan over the prefix. -/
def row_start (text : List Char) (i : Nat) : Nat :=
  (List.range (min i text.length)).foldl
    (fun s j => if text.getD j nul = '\n' then j + 1 else s) 0

/-- First newline at offset j of the list, if any (helper for get_row_end and
get_row_len, which scan the characters from the cursor on). -/
def first_nl : List Char → Option Nat
  | [] => none
  | c :: rest => if c = '\n' then some 0 else (first_nl rest).map (· + 1)

/-- get_row_end from buffer.rs: index of the first newline at or after i, else
the text length. -/
def row_end (text : List Char) (i : Nat) : Nat :=
  match first_nl (text.drop i) with
  | some j => i + j
  | none => text.length

/-- get_row_len from buffer.rs: distance from i to the first newline at or after
i, else to the end of the text. -/
def row_len (text : List Char) (i : Nat) : Nat :=
  match first_nl (text.drop i) with
  | some j => j
  | none => text.length - i

/-- get_col from buffer.rs: cursor minus row start, cast to u16. -/
def get_col (text : List Char) (i : Nat) : Nat :=
  (i - row_start text i) % 65536

/-- adj_camera from buffer.rs: the result of the four unit-step loops that drag
the camera until the cursor's derived row/col lie inside the viewport. -/
def adj_camera (b : Buf) : CameraE :=
  let row := row_cnt b.text b.cursor
  let col := get_col b.text b.cursor
  let r1 := if row < b.camera.row then row else b.camera.row
  let r2 := if r1 + b.height ≤ row then row + 1 - b.height else r1
  let c1 := if col < b.camera.col then col else b.camera.col
  let c2 := if c1 + b.width ≤ col then col + 1 - b.width else c1
  ⟨r2, c2⟩

/-- cursor_forward from buffer.rs: advance by one, clamped to the length, then
adjust the camera. -/
def cursor_forward (b : Buf) : Buf :=
  let b' := if b.cursor < b.text.length then { b with cursor := b.cursor + 1 } else b
  { b' with camera := adj_camera b' }

/-- cursor_backward from buffer.rs: retreat by one, clamped to zero, then adjust
the camera. -/
def cursor_backward (b : Buf) : Buf :=
  let b' := if 0 < b.cursor then { b with cursor := b.cursor - 1 } else b
  { b' with camera := adj_camera b' }

theorem cursor_forward_text (b : Buf) : (cursor_forward b).text = b.text := by
  unfold cursor_forward
  split <;> rfl

theorem cursor_forward_cursor (b : Buf) :
    (cursor_forward b).cursor = if b.cursor < b.text.length then b.cursor + 1 else b.cursor := by
  unfold cursor_forward
  split <;> rfl

theorem cursor_backward_text (b : Buf) : (cursor_backward b).text = b.text := by
  unfold cursor_backward
  split <;> rfl

theorem cursor_backward_cursor (b : Buf) :
    (cursor_backward b).cursor = if 0 < b.cursor then b.cursor - 1 else b.cursor := by
  unfold cursor_backward
  split <;> rfl

/-!
The while loops of the logical-motion and logical-delete operations are
embedded as structurally recursive functions over an explicit iteration bound.
Each loop's guard implies that its step strictly shrinks the quantity the bound
is instantiated with at the call site (length minus cursor for forward loops,
cursor for backward loops), so the bound can never be exhausted while the guard
still holds: the fueled function computes exactly the loop's result, and it
stays evaluable by kernel reduction.
-/

/-- The while loop inside cursor_forward_action that skips a run of
tab-continuation sentinels in front of the cursor. -/
def skip_x02_f_go (chars : List Char) : Nat → Buf → Buf
  | 0, b => b
  | fuel + 1, b =>
    if b.cursor < b.text.length ∧ chars.getD b.cursor nul = x02 then
      skip_x02_f_go chars fuel (cursor_forward b)
    else b

def skip_x02_f (chars : List Char) (b : Buf) : Buf :=
  skip_x02_f_go chars (b.text.length - b.cursor) b

/-- The while loop inside cursor_forward_action that consumes spaces up to the
next tab stop (soft-tab forward motion). -/
def skip_spaces_f_go (chars : List Char) (t : Nat) : Nat → Buf → Buf
  | 0, b => b
  | fuel + 1, b =>
    if b.cursor < b.text.length ∧ chars.getD b.cursor nul = ' ' ∧
        get_col b.text b.cursor % t ≠ 0 then
      skip_spaces_f_go chars t fuel (cursor_forward b)
    else b

def skip_spaces_f (chars : List Char) (t : Nat) (b : Buf) : Buf :=
  skip_spaces_f_go chars t (b.text.length - b.cursor) b

/-- The while loop inside cursor_backward_action that skips a run of
tab-continuation sentinels behind the cursor. -/
def skip_x02_b_go (chars : List Char) : Nat → Buf → Buf
  | 0, b => b
  | fuel + 1, b =>
    if 0 < b.cursor ∧ chars.getD (b.cursor - 1) nul = x02 then
      skip_x02_b_go chars fuel (cursor_backward b)
    else b

def skip_x02_b (chars : List Char) (b : Buf) : Buf :=
  skip_x02_b_go chars b.cursor b

/-- The while loop inside cursor_backward_action that consumes spaces back to
the previous tab stop (soft-tab backward motion). -/
def skip_spaces_b_go (chars : List Char) (t : Nat) : Nat → Buf → Buf
  | 0, b => b
  | fuel + 1, b =>
    if 0 < b.cursor ∧ chars.getD (b.cursor - 1) nul = ' ' ∧
        get_col b.text b.cursor % t ≠ 0 then
      skip_spaces_b_go chars t fuel (cursor_backward b)
    else b

def skip_spaces_b (chars : List Char) (t : Nat) (b : Buf) : Buf :=
  skip_spaces_b_go chars t b.cursor b

/-- cursor_forward_action from buffer.rs: one raw step, then sentinel, tab-run
or soft-tab handling keyed on the character just crossed. -/
def cursor_forward_action (b : Buf) : Buf :=
  let b1 := cursor_forward b
  let chars := b1.text
  if 0 < b1.cursor then
    let c := chars.getD (b1.cursor - 1) nul
    if is_hangul c then cursor_forward b1
    else if c = '\t' then skip_x02_f chars (cursor_forward b1)
    else if c = ' ' then
      if usub1 (get_col b1.text b1.cursor) % b1.setting.tabSize = 0 then
        skip_spaces_f chars b1.setting.tabSize b1
      else b1
    else b1
  else b1

/-- cursor_backward_action from buffer.rs: one raw step back, then sentinel,
tab-run or soft-tab handling keyed on the character now behind the cursor. -/
def cursor_backward_action (b : Buf) : Buf :=
  let b1 := cursor_backward b
  let chars := b1.text
  if 0 < b1.cursor then
    let c := chars.getD (b1.cursor - 1) nul
    if is_hangul c then cursor_backward b1
    else if c = x02 then cursor_backward (skip_x02_b chars b1)
    else if c = ' ' then
      if (get_col b1.text b1.cursor + 1) % b1.setting.tabSize = 0 then
        skip_spaces_b chars b1.setting.tabSize b1
      else b1
    else b1
  else b1

/-- cursor_up from buffer.rs: no-op on (u16) row zero, else jump to the previous
line keeping the pre-move column clamped to that line's length. -/
def cursor_up (b : Buf) : Buf :=
  if row_cnt b.text b.cursor = 0 then b
  else
    let col := get_col b.text b.cursor
    let c1 := row_start b.text b.cursor - 1
    let c2 := row_start b.text c1
    let c3 := c2 + min col (row_len b.text c2)
    let b' := { b with cursor := c3 }
    { b' with camera := adj_camera b' }

/-- cursor_down from buffer.rs: no-op on the (u16-compared) last line, else jump
to the next line keeping the pre-move column clamped to that line's length. -/
def cursor_down (b : Buf) : Buf :=
  if row_cnt b.text b.cursor = (b.text.count '\n') % 65536 then b
  else
    let col := get_col b.text b.cursor
    let c1 := row_end b.text b.cursor + 1
    let c2 := c1 + min col (row_len b.text c1)
    let b' := { b with cursor := c2 }
    { b' with camera := adj_camera b' }

/-- insert_char from buffer.rs: lower-case unless upper, insert at the cursor,
advance, and append a wide-continuation sentinel after a Hangul glyph. -/
def insert_char (c : Char) (upper : Bool) (b : Buf) : Buf :=
  let c := if upper then c else c.toLower
  let b := cursor_forward { b with text := b.text.insertIdx b.cursor c }
  let b :=
    if is_hangul c then
      cursor_forward { b with text := b.text.insertIdx b.cursor x01 }
    else b
  { b with saved := false }

/-- insert_str from buffer.rs: insert the string at the cursor and advance by
one character. -/
def insert_str (s : List Char) (b : Buf) : Buf :=
  let b := cursor_forward { b with text := b.text.take b.cursor ++ s ++ b.text.drop b.cursor }
  { b with saved := false }

/-- insert_newline from buffer.rs: insert a newline via insert_char, then
advance the cursor once more. -/
def insert_newline (b : Buf) : Buf :=
  let b := cursor_forward (insert_char '\n' true b)
  { b with saved := false }

/-- The insertion loops of insert_tab: insert n copies of c at the cursor,
advancing after each. -/
def insert_rep (c : Char) : Nat → Buf → Buf
  | 0, b => b
  | n + 1, b => insert_rep c n (cursor_forward { b with text := b.text.insertIdx b.cursor c })

/-- insert_tab from buffer.rs: pad to the next tab stop with spaces, or with a
tab character followed by tab-continuation sentinels, per the tab type. -/
def insert_tab (b : Buf) : Buf :=
  let tabsz := b.setting.tabSize - get_col b.text b.cursor % b.setting.tabSize
  let b' :=
    match b.setting.tabType with
    | .space => insert_rep ' ' tabsz b
    | .tab =>
        insert_rep x02 (tabsz - 1)
          (cursor_forward { b with text := b.text.insertIdx b.cursor '\t' })
  { b' with saved := false }

/-- delete (backspace) from buffer.rs: remove the character before the cursor,
when there is one, and step back. -/
def delete (b : Buf) : Buf :=
  if 0 < b.text.length ∧ 0 < b.cursor then
    cursor_backward { b with text := b.text.eraseIdx (b.cursor - 1) }
  else b

theorem delete_cursor_le (b : Buf) : (delete b).cursor ≤ b.cursor := by
  unfold delete
  split
  · simp only [cursor_backward_cursor]
    split <;> omega
  · exact Nat.le_refl _

/-- The unguarded while loop of delete_action's sentinel branch: the source
indexes chars at cursor - 1 without a positivity check, so reaching cursor 0
inside the loop panics (index out of range after usize wrap); that panic, and
the divergence possible on incoherent states, are modelled by fuel exhaustion
returning none.  The fuel passed by delete_action bounds the iterations of
every run that the source completes normally. -/
def da_x02_loop (chars : List Char) : Nat → Buf → Option Buf
  | 0, _ => none
  | fuel + 1, b =>
    if b.cursor = 0 then none
    else if chars.getD (b.cursor - 1) nul = x02 then da_x02_loop chars fuel (delete b)
    else some (delete b)

/-- The while loop of delete_action's space branch: keep removing spaces before
the cursor until the column is back on a tab stop. -/
def da_space_loop_go (chars : List Char) (t : Nat) : Nat → Buf → Buf
  | 0, b => b
  | fuel + 1, b =>
    if 0 < b.cursor ∧ chars.getD (b.cursor - 1) nul = ' ' ∧
        get_col b.text b.cursor % t ≠ 0 then
      da_space_loop_go chars t fuel
        (cursor_backward { b with text := b.text.eraseIdx (b.cursor - 1) })
    else b

def da_space_loop (chars : List Char) (t : Nat) (b : Buf) : Buf :=
  da_space_loop_go chars t b.cursor b

/-- delete_action from buffer.rs: logical backspace over space padding, wide
glyph pairs and tab-continuation runs, marking the buffer unsaved at the end;
none models the panic reachable inside the sentinel branch. -/
def delete_action (b : Buf) : Option Buf :=
  let chars := b.text
  let core : Option Buf :=
    if 0 < b.cursor then
      if chars.getD (b.cursor - 1) nul = ' ' ∧
          get_col b.text b.cursor % b.setting.tabSize = 0 then
        some (da_space_loop chars b.setting.tabSize (delete b))
      else if chars.getD (b.cursor - 1) nul = x01 ∧ 1 < b.cursor ∧
          is_hangul (chars.getD (b.cursor - 2) nul) then
        some (cursor_backward (cursor_backward
          { b with text := (b.text.eraseIdx (b.cursor - 2)).eraseIdx (b.cursor - 2) }))
      else if chars.getD (b.cursor - 1) nul = x02 then
        da_x02_loop chars (b.cursor + 1) b
      else some (delete b)
    else some b
  core.map fun b' => { b' with saved := false }

/-- delete_back (forward delete) from buffer.rs: remove the character at the
cursor, when there is one, and mark the buffer unsaved. -/
def delete_back (b : Buf) : Buf :=
  let b :=
    if 0 < b.text.length ∧ b.cursor < b.text.length then
      { b with text := b.text.eraseIdx b.cursor }
    else b
  { b with saved := false }

/-- A fresh buffer as created by Buffer::new (empty rope, cursor 0, unsaved). -/
def Buf.new (width height : Nat) (setting : SettingE) : Buf :=
  ⟨[], 0, ⟨0, 0⟩, width, height, none, false, setting⟩

/-- Buffer::open from buffer.rs: starting from the rope already holding the file
contents, the loop walks the snapshot of the original characters and for each
one inserts it (plus sentinels for tabs and Hangul glyphs) again at position i
of the mutating rope. -/
def open_rope (contents : List Char) : List Char :=
  contents.enum.foldl
    (fun rope ic =>
      let i := ic.1
      let c := ic.2
      if c = '\t' then
        (((rope.insertIdx i '\t').insertIdx (i + 1) x02).insertIdx (i + 1) x02).insertIdx
          (i + 1) x02
      else if is_hangul c then
        (rope.insertIdx i c).insertIdx (i + 1) x01
      else rope.insertIdx i c)
    contents

/-- UTF-8 encoding of one Unicode scalar value, as the rope's byte iterator
produces it. -/
def utf8_bytes (c : Char) : List Nat :=
  let n := c.toNat
  if n < 0x80 then [n]
  else if n < 0x800 then [0xC0 + n / 64, 0x80 + n % 64]
  else if n < 0x10000 then [0xE0 + n / 4096, 0x80 + n / 64 % 64, 0x80 + n % 64]
  else [0xF0 + n / 0x40000, 0x80 + n / 4096 % 64, 0x80 + n / 64 % 64, 0x80 + n % 64]

/-- The byte filter in Buffer::save: push b when b != 0 || b != 1 || b != 2. -/
def save_keeps (b : Nat) : Bool := b ≠ 0 || b ≠ 1 || b ≠ 2

/-- The byte sequence Buffer::save builds from the document before writing. -/
def save_bytes (text : List Char) : List Nat :=
  (text.flatMap utf8_bytes).filter save_keeps

/-- Buffer::save from buffer.rs with the file write abstracted: returns the
destination path and the bytes written (setting the saved flag) or the
no-destination error.  I/O failure of the write itself is not modelled. -/
def save (b : Buf) (p : Option (List Char)) :
    Except (List Char) (List Char × List Nat × Buf) :=
  let byte := save_bytes b.text
  match p with
  | some path => .ok (path, byte, { b with saved := true })
  | none =>
    match b.path with
    | some path => .ok (path, byte, { b with saved := true })
    | none => .error ("No path to save, use save_as(Cmd: Ctrl+S)").toList

/-- Action from lib.rs: a name and optional string arguments. -/
structure ActionE where
  name : List Char
  args : List (Option (List Char))
deriving DecidableEq, Repr

/-- A word character of the regex \w, restricted to its ASCII fragment (the
action names and arguments the editor produces are ASCII). -/
def word_char (c : Char) : Bool := c.isAlphanum || c = '_'

/-- Rust str::split(',') on a character list: the comma-separated pieces, empty
pieces included. -/
def split_commas : List Char → List (List Char)
  | [] => [[]]
  | c :: rest =>
    if c = ',' then [] :: split_commas rest
    else
      match split_commas rest with
      | h :: t => (c :: h) :: t
      | [] => [[c]]

/-- The anchored regex (\w+)(\((.+)\))? of parse_action, made explicit: a match
decomposes the string into a maximal nonempty word-character prefix and, when
anything follows, a parenthesized nonempty argument chunk containing no
newline (the dot of the regex does not match a newline). -/
def parse_shape (s : List Char) : Option (List Char × Option (List Char)) :=
  let name := s.takeWhile word_char
  let rest := s.drop name.length
  if name.isEmpty then none
  else
    match rest with
    | [] => some (name, none)
    | '(' :: more =>
      if more.getLast? = some ')' then
        let inner := more.dropLast
        if inner.isEmpty || inner.any (· = '\n') then none else some (name, some inner)
      else none
    | _ => none

/-- parse_action from lib.rs: match the action grammar, split the arguments on
commas and expand the reserved tokens. -/
def parse_action (action line : List Char) (idx : Nat) : Except (List Char) ActionE :=
  match parse_shape action with
  | none => .error ("parse_action: invalid action").toList
  | some (name, none) => .ok ⟨name, []⟩
  | some (name, some inner) =>
    let args := (split_commas inner).map fun s =>
      if s = ("$line").toList then
        if line.isEmpty then none else some line
      else if s = ("$idx").toList then some (Nat.repr idx).toList
      else some s
    .ok ⟨name, args⟩

/-- Key from key.rs. -/
inductive KeyE where
  | charAny | ctrl | alt | shift
  | char (c : Char)
  | f (n : Nat)
  | capsLock | tabKey | enter | backspace | space
  | left | right | up | down | home | kEnd | pageUp | pageDown
  | insertKey | deleteKey | esc | numLock | scrollLock | pause | printScreen
  | breakKey | escape | backTab
deriving DecidableEq, Repr

/-- The is_char closure of Keymap::get_action. -/
def is_char_key : KeyE → Bool
  | .char _ => true
  | _ => false

/-- BTreeSet equality of two chords, with a chord modelled as the list of its
keys in iteration order. -/
def chord_eq (a b : List KeyE) : Bool :=
  a.all (b.contains ·) && b.all (a.contains ·)

/-- Command from key.rs: the alternative chords bound to one action template,
in BTreeSet iteration order. -/
structure CommandE where
  alts : List (List KeyE)
deriving DecidableEq, Repr

/-- The reverse index keymap_reversed, in its (hash-map) iteration order. -/
abbrev KeymapE := List (CommandE × List Char)

/-- Index of the first occurrence of pat inside s, as str::find locates the
literal pattern (byte and character indices coincide on the ASCII action
templates). -/
def find_sub (pat : List Char) : List Char → Option Nat
  | [] => if pat.isEmpty then some 0 else none
  | c :: rest =>
    if pat.isPrefixOf (c :: rest) then some 0
    else (find_sub pat rest).map (· + 1)

/-- String::replace_range over a character list. -/
def replace_range (s : List Char) (i len : Nat) (repl : List Char) : List Char :=
  s.take i ++ repl ++ s.drop (i + len)

/-- The inner loop of Keymap::get_action over one command's alternative chords:
none means no alternative fired and the outer loop continues; some r means the
function returns r (where r = none stands for the unreachable-branch panic when
a wildcard binding's template has no char placeholder). -/
def scan_alts (act : List Char) (key : List KeyE) : List (List KeyE) → Option (Option (List Char))
  | [] => none
  | k :: ks =>
    if chord_eq k key then some (some act)
    else if k.contains .charAny && key.any is_char_key then
      let com := k.filter (· ≠ KeyE.charAny)
      let charCode := key.find? is_char_key
      let key2 := key.filter fun x => !is_char_key x
      if chord_eq key2 com then
        match charCode with
        | some (.char c) =>
          match find_sub ("$char").toList act with
          | some i => some (some (replace_range act i 5 [c]))
          | none => some none
        | _ => scan_alts act key ks
      else scan_alts act key ks
    else scan_alts act key ks

/-- Keymap::get_action from key.rs: scan the reverse index in iteration order,
checking each entry's alternatives for an exact match and then a wildcard
match, returning the first hit. -/
def get_action (km : KeymapE) (key : List KeyE) : Option (List Char) :=
  match km with
  | [] => none
  | (cmd, act) :: rest =>
    match scan_alts act key cmd.alts with
    | some r => r
    | none => get_action rest key

/-- Whether one entry of the reverse index fires on the chord at all, exactly
or through its wildcard. -/
def entry_matches (cmd : CommandE) (key : List KeyE) : Bool :=
  cmd.alts.any fun k =>
    chord_eq k key ||
      (k.contains .charAny && key.any is_char_key &&
        chord_eq (key.filter fun x => !is_char_key x) (k.filter (· ≠ KeyE.charAny)))

/-- A tab as the CloseTab effect sees it: an identity (for tracking which tab is
which) and the stored tab_idx field that the re-index loop rewrites. -/
structure TabE where
  id : Nat
  tabIdx : Nat
deriving DecidableEq, Repr

/-- The dispatcher state the CloseTab arm of process_action touches. -/
structure TabsSt where
  tabs : List TabE
  tabIdx : Nat
  running : Bool
deriving DecidableEq, Repr

/-- The CloseTab arm of process_action in lib.rs: remove tab i, decrement the
focus when tab_idx >= i (a wrapping usize subtraction), rewrite every remaining
tab's tab_idx to its position, and clear the running flag when no tab is left. -/
def close_tab (i : Nat) (s : TabsSt) : TabsSt :=
  let tabs := s.tabs.eraseIdx i
  let tabIdx := if i ≤ s.tabIdx then usub1 s.tabIdx else s.tabIdx
  let tabs := tabs.enum.map fun jt => { jt.2 with tabIdx := jt.1 }
  let running := if tabs.length = 0 then false else s.running
  ⟨tabs, tabIdx, running⟩

/-- The tab part of the claimed padding invariant: every tab-continuation
sentinel is part of a run whose immediate predecessor is a tab character
(equivalently, the character before each sentinel is a tab or another
sentinel, and a sentinel never starts the text). -/
def x02_run_ok (text : List Char) : Bool :=
  (List.range text.length).all fun i =>
    !(text.getD i nul == x02) ||
      (i != 0 && (text.getD (i - 1) nul == x02 || text.getD (i - 1) nul == '\t'))

/-- The wide part of the claimed padding invariant: every wide-continuation
sentinel is immediately preceded by a double-cell (Hangul) glyph. -/
def x01_pred_ok (text : List Char) : Bool :=
  (List.range text.length).all fun i =>
    !(text.getD i nul == x01) || (i != 0 && is_hangul (text.getD (i - 1) nul))

/-- Claim C1: the padding invariant is claimed to hold after every sequence of
logical edit operations.  It does not: starting from an empty buffer
(tab_size 4, tab rendering), InsertTab produces a tab with three continuation
sentinels, CursorBackward returns to index 0, and DeleteBack (forward delete)
removes just the tab character, leaving a run of three tab-continuation
sentinels with no preceding tab. -/
theorem padding_invariant_bug :
    (insert_tab (Buf.new 80 24 ⟨4, .tab⟩)).text = ['\t', x02, x02, x02]
    ∧ x02_run_ok (insert_tab (Buf.new 80 24 ⟨4, .tab⟩)).text = true
    ∧ (cursor_backward_action (insert_tab (Buf.new 80 24 ⟨4, .tab⟩))).cursor = 0
    ∧ (delete_back (cursor_backward_action (insert_tab (Buf.new 80 24 ⟨4, .tab⟩)))).text
        = [x02, x02, x02]
    ∧ x02_run_ok
        (delete_back (cursor_backward_action (insert_tab (Buf.new 80 24 ⟨4, .tab⟩)))).text
        = false := by
  decide

/-- Claim C2: save is claimed to strip the sentinel bytes before writing.  The
filter condition b != 0 || b != 1 || b != 2 holds for every byte, so nothing
is stripped: the serialized form of the two-character document Hangul glyph
plus wide-continuation sentinel still contains the 0x01 byte, and the bytes
written to the buffer's known path are the raw UTF-8 bytes of the document. -/
theorem save_strips_nothing :
    (∀ bv : Nat, save_keeps bv = true)
    ∧ (∀ text : List Char, save_bytes text = text.flatMap utf8_bytes)
    ∧ save_bytes ['한', x01] = [237, 149, 156, 1]
    ∧ save ⟨['한', x01], 0, ⟨0, 0⟩, 80, 24, some ("f.txt").toList, true, ⟨4, .tab⟩⟩ none
        = .ok (("f.txt").toList, [237, 149, 156, 1],
            ⟨['한', x01], 0, ⟨0, 0⟩, 80, 24, some ("f.txt").toList, true, ⟨4, .tab⟩⟩) := by
  have hk : ∀ bv : Nat, save_keeps bv = true := by
    intro bv
    simp only [save_keeps]
    by_cases h0 : bv = 0
    · simp [h0]
    · simp [h0]
  refine ⟨hk, ?_, by decide, rfl⟩
  intro text
  simp only [save_bytes]
  exact List.filter_eq_self.mpr fun a _ => hk a

/-- Claim C3: loading a file is claimed to reproduce its character sequence
with sentinels inserted and nothing duplicated.  The load loop re-inserts
every character of the snapshot into the rope that already contains the file,
so the two-character file ab loads as the four-character document abab. -/
theorem open_duplicates :
    open_rope ("ab").toList = ("abab").toList
    ∧ open_rope ("ab").toList ≠ ("ab").toList := by
  decide

/-- Claim C6 does not hold as stated: insert_char already advances the cursor
past the inserted newline, and insert_newline then advances once more, so with
a character after the insertion point the cursor ends at the original index
plus two, not plus one. -/
theorem insert_newline_cex :
    (insert_newline ⟨['a', 'b'], 0, ⟨0, 0⟩, 80, 24, none, true, ⟨4, .tab⟩⟩).text
      = ['\n', 'a', 'b']
    ∧ (insert_newline ⟨['a', 'b'], 0, ⟨0, 0⟩, 80, 24, none, true, ⟨4, .tab⟩⟩).cursor = 2
    ∧ (2 : Nat) ≠ 0 + 1 := by
  decide

/-- Claim C6, amended: insert_newline inserts one newline at the cursor index
and leaves the cursor at the original index plus two when the cursor was
strictly before the end of the document (one past the line break and one
further), and at the original index plus one when the cursor was at the end;
it also marks the buffer unsaved. -/
theorem insert_newline_amended (b : Buf) (h : b.cursor ≤ b.text.length) :
    (insert_newline b).text = b.text.insertIdx b.cursor '\n'
    ∧ (insert_newline b).cursor
        = (if b.cursor < b.text.length then b.cursor + 2 else b.cursor + 1)
    ∧ (insert_newline b).saved = false := by
  have hlen : (b.text.insertIdx b.cursor '\n').length = b.text.length + 1 :=
    List.length_insertIdx b.cursor b.text h
  have hh : is_hangul '\n' = false := by decide
  refine ⟨?_, ?_, rfl⟩
  · simp only [insert_newline, insert_char, if_true, hh, Bool.false_eq_true, if_false,
      cursor_forward_text]
  · simp only [insert_newline, insert_char, if_true, hh, Bool.false_eq_true, if_false,
      cursor_forward_text, cursor_forward_cursor, hlen]
    rw [if_pos (show b.cursor < b.text.length + 1 by omega)]
    by_cases h2 : b.cursor < b.text.length
    · rw [if_pos (show b.cursor + 1 < b.text.length + 1 by omega), if_pos h2]
    · rw [if_neg (show ¬b.cursor + 1 < b.text.length + 1 by omega), if_neg h2]

theorem insert_newline_amended_witness :
    (insert_newline (Buf.new 80 24 ⟨4, .tab⟩)).text
        = (Buf.new 80 24 ⟨4, .tab⟩).text.insertIdx (Buf.new 80 24 ⟨4, .tab⟩).cursor '\n'
    ∧ (insert_newline (Buf.new 80 24 ⟨4, .tab⟩)).cursor
        = (if (Buf.new 80 24 ⟨4, .tab⟩).cursor < (Buf.new 80 24 ⟨4, .tab⟩).text.length
            then (Buf.new 80 24 ⟨4, .tab⟩).cursor + 2
            else (Buf.new 80 24 ⟨4, .tab⟩).cursor + 1)
    ∧ (insert_newline (Buf.new 80 24 ⟨4, .tab⟩)).saved = false :=
  insert_newline_amended (Buf.new 80 24 ⟨4, .tab⟩) (by decide)

/-- Claim C10: every run of delete_action that completes normally ends by
clearing the saved flag (none models the panic path of the sentinel branch),
delete_back always clears it, and both boundary no-op invocations — logical
backspace at index 0 and forward delete at the document end — leave the text
untouched while still marking a previously saved buffer unsaved. -/
theorem delete_marks_unsaved :
    (∀ b b' : Buf, delete_action b = some b' → b'.saved = false)
    ∧ (∀ b : Buf, (delete_back b).saved = false)
    ∧ delete_action ⟨['a'], 0, ⟨0, 0⟩, 80, 24, none, true, ⟨4, .tab⟩⟩
        = some ⟨['a'], 0, ⟨0, 0⟩, 80, 24, none, false, ⟨4, .tab⟩⟩
    ∧ delete_back ⟨['a'], 1, ⟨0, 0⟩, 80, 24, none, true, ⟨4, .tab⟩⟩
        = ⟨['a'], 1, ⟨0, 0⟩, 80, 24, none, false, ⟨4, .tab⟩⟩ := by
  refine ⟨?_, fun b => rfl, by decide, by decide⟩
  intro b b' h
  unfold delete_action at h
  rw [Option.map_eq_some'] at h
  obtain ⟨a, -, ha⟩ := h
  rw [← ha]

theorem delete_marks_unsaved_witness :
    (⟨['b'], 0, ⟨0, 0⟩, 80, 24, none, false, ⟨4, .tab⟩⟩ : Buf).saved = false :=
  delete_marks_unsaved.1 ⟨['a', 'b'], 1, ⟨0, 0⟩, 80, 24, none, true, ⟨4, .tab⟩⟩
    ⟨['b'], 0, ⟨0, 0⟩, 80, 24, none, false, ⟨4, .tab⟩⟩ (by decide)

/-- Claim C7: the action grammar accepts Name and Name(args), expands the two
reserved tokens as specified (including the two worked examples from the
spec and the decimal expansion of the tab index), and rejects any string the
anchored regex does not match with the invalid-action error. -/
theorem parse_action_spec :
    parse_action ("Open($line)").toList ("foo.txt").toList 2
        = .ok ⟨("Open").toList, [some ("foo.txt").toList]⟩
    ∧ parse_action ("Open($line)").toList [] 2 = .ok ⟨("Open").toList, [none]⟩
    ∧ (∀ line : List Char, ∀ idx : Nat,
        parse_action ("Open($idx)").toList line idx
          = .ok ⟨("Open").toList, [some (Nat.repr idx).toList]⟩)
    ∧ (∀ s line : List Char, ∀ idx : Nat, parse_shape s = none →
        parse_action s line idx = .error ("parse_action: invalid action").toList) := by
  refine ⟨rfl, rfl, fun line idx => rfl, ?_⟩
  intro s line idx h
  simp only [parse_action, h]

theorem parse_action_spec_witness :
    parse_action ("Open($idx)").toList ['x'] 0
        = .ok ⟨("Open").toList, [some (Nat.repr 0).toList]⟩
    ∧ parse_action ("(").toList [] 3 = .error ("parse_action: invalid action").toList :=
  ⟨parse_action_spec.2.2.1 ['x'] 0,
   parse_action_spec.2.2.2 ("(").toList [] 3 (by decide)⟩

/-- Re-indexing helper: mapping the position-rewriting loop over an enumerated
list keeps the tab identities. -/
theorem reindex_map_id (n : Nat) (l : List TabE) :
    ((l.enumFrom n).map fun jt => { jt.2 with tabIdx := jt.1 }).map TabE.id
      = l.map TabE.id := by
  induction l generalizing n with
  | nil => rfl
  | cons a t ih => simp only [List.enumFrom_cons, List.map_cons, ih]

/-- Re-indexing helper: after the loop the stored indices are exactly the
positions. -/
theorem reindex_map_idx (n : Nat) (l : List TabE) :
    ((l.enumFrom n).map fun jt => { jt.2 with tabIdx := jt.1 }).map TabE.tabIdx
      = List.range' n l.length := by
  induction l generalizing n with
  | nil => rfl
  | cons a t ih =>
    simp only [List.enumFrom_cons, List.map_cons, ih, List.length_cons, List.range'_succ]

theorem usub1_eq (n : Nat) (h1 : 1 ≤ n) (h2 : n < 2 ^ 64) : usub1 n = n - 1 := by
  unfold usub1
  have hm : (2 : Nat) ^ 64 = 18446744073709551616 := by norm_num
  rw [hm] at h2 ⊢
  omega

/-- Claim C9 does not hold as stated: closing tab 0 while tab 0 is focused
performs a wrapping usize decrement of the focus index, which underflows to
2^64 - 1 instead of being clamped into bounds. -/
theorem close_tab_cex :
    (close_tab 0 ⟨[⟨10, 0⟩, ⟨11, 1⟩], 0, true⟩).tabIdx = 2 ^ 64 - 1
    ∧ ¬((close_tab 0 ⟨[⟨10, 0⟩, ⟨11, 1⟩], 0, true⟩).tabIdx
          < (close_tab 0 ⟨[⟨10, 0⟩, ⟨11, 1⟩], 0, true⟩).tabs.length) := by
  constructor
  · show usub1 0 = 2 ^ 64 - 1
    unfold usub1
    omega
  · show ¬(usub1 0 < 1)
    unfold usub1
    omega

/-- Claim C9, amended: CloseTab(i) removes tab i, re-indexes the remaining tabs
consecutively by position, and clears the running flag when no tab remains;
the focused-tab index stays in bounds in every case except closing tab 0 while
tab 0 is focused, where the focus index underflows (the worked example with
tabs 0,1,2 focused at 2 and CloseTab(1) behaves as specified). -/
theorem close_tab_amended :
    (∀ s : TabsSt, ∀ i : Nat, i < s.tabs.length → s.tabIdx < s.tabs.length →
      s.tabs.length < 2 ^ 64 → ¬(s.tabIdx = 0 ∧ i = 0) → 2 ≤ s.tabs.length →
        (close_tab i s).tabIdx < s.tabs.length - 1
        ∧ (close_tab i s).tabs.map TabE.id = (s.tabs.eraseIdx i).map TabE.id
        ∧ (close_tab i s).tabs.map TabE.tabIdx = List.range (s.tabs.length - 1)
        ∧ (close_tab i s).running = s.running)
    ∧ (∀ s : TabsSt, ∀ i : Nat, i < s.tabs.length → s.tabs.length = 1 →
        (close_tab i s).running = false)
    ∧ close_tab 1 ⟨[⟨10, 0⟩, ⟨11, 1⟩, ⟨12, 2⟩], 2, true⟩ = ⟨[⟨10, 0⟩, ⟨12, 1⟩], 1, true⟩ := by
  have hct : ∀ (i : Nat) (s : TabsSt),
      close_tab i s
        = ⟨((s.tabs.eraseIdx i).enumFrom 0).map fun jt => { jt.2 with tabIdx := jt.1 },
           if i ≤ s.tabIdx then usub1 s.tabIdx else s.tabIdx,
           if (((s.tabs.eraseIdx i).enumFrom 0).map fun jt =>
                { jt.2 with tabIdx := jt.1 }).length = 0 then false
           else s.running⟩ := fun i s => rfl
  refine ⟨?_, ?_, by decide⟩
  · intro s i hi hf hlt hne h2
    have hel : (s.tabs.eraseIdx i).length = s.tabs.length - 1 :=
      List.length_eraseIdx_of_lt hi
    rw [hct]
    dsimp only
    refine ⟨?_, reindex_map_id 0 (s.tabs.eraseIdx i), ?_, ?_⟩
    · by_cases hc : i ≤ s.tabIdx
      · rw [if_pos hc]
        have h1 : 1 ≤ s.tabIdx := by omega
        rw [usub1_eq s.tabIdx h1 (by omega)]
        omega
      · rw [if_neg hc]
        omega
    · rw [reindex_map_idx 0 (s.tabs.eraseIdx i), hel, List.range_eq_range']
    · rw [if_neg]
      simp only [List.length_map, List.enumFrom_length, hel]
      omega
  · intro s i hi h1
    rw [hct]
    dsimp only
    rw [if_pos]
    simp only [List.length_map, List.enumFrom_length, List.length_eraseIdx_of_lt hi, h1]

theorem close_tab_amended_witness :
    ((close_tab 1 ⟨[⟨10, 0⟩, ⟨11, 1⟩, ⟨12, 2⟩], 2, true⟩).tabIdx
        < (⟨[⟨10, 0⟩, ⟨11, 1⟩, ⟨12, 2⟩], 2, true⟩ : TabsSt).tabs.length - 1
      ∧ (close_tab 1 ⟨[⟨10, 0⟩, ⟨11, 1⟩, ⟨12, 2⟩], 2, true⟩).tabs.map TabE.id
          = ((⟨[⟨10, 0⟩, ⟨11, 1⟩, ⟨12, 2⟩], 2, true⟩ : TabsSt).tabs.eraseIdx 1).map TabE.id
      ∧ (close_tab 1 ⟨[⟨10, 0⟩, ⟨11, 1⟩, ⟨12, 2⟩], 2, true⟩).tabs.map TabE.tabIdx
          = List.range ((⟨[⟨10, 0⟩, ⟨11, 1⟩, ⟨12, 2⟩], 2, true⟩ : TabsSt).tabs.length - 1)
      ∧ (close_tab 1 ⟨[⟨10, 0⟩, ⟨11, 1⟩, ⟨12, 2⟩], 2, true⟩).running
          = (⟨[⟨10, 0⟩, ⟨11, 1⟩, ⟨12, 2⟩], 2, true⟩ : TabsSt).running)
    ∧ (close_tab 0 ⟨[⟨7, 0⟩], 0, true⟩).running = false :=
  ⟨close_tab_amended.1 ⟨[⟨10, 0⟩, ⟨11, 1⟩, ⟨12, 2⟩], 2, true⟩ 1 (by decide) (by decide)
      (by norm_num) (by decide) (by decide),
   close_tab_amended.2.1 ⟨[⟨7, 0⟩], 0, true⟩ 0 (by decide) (by decide)⟩

/-- An entry none of whose alternatives fires lets the scan fall through. -/
theorem scan_alts_of_no_match (act : List Char) (key : List KeyE) :
    ∀ alts : List (List KeyE),
      (alts.any fun k =>
        chord_eq k key ||
          (k.contains KeyE.charAny && key.any is_char_key &&
            chord_eq (key.filter fun x => !is_char_key x)
              (k.filter (· ≠ KeyE.charAny)))) = false →
      scan_alts act key alts = none := by
  intro alts
  induction alts with
  | nil => intro _; rfl
  | cons k ks ih =>
    intro h
    simp only [List.any_cons, Bool.or_eq_false_iff] at h
    obtain ⟨⟨hex, hwc⟩, hrest⟩ := h
    simp only [scan_alts, hex, Bool.false_eq_true, if_false]
    by_cases hg : (k.contains KeyE.charAny && key.any is_char_key) = true
    · rw [if_pos hg]
      have hne : chord_eq (key.filter fun x => !is_char_key x)
          (k.filter (· ≠ KeyE.charAny)) = false := by
        rcases Bool.and_eq_false_iff.mp hwc with h' | h'
        · rw [h'] at hg
          simp at hg
        · exact h'
      rw [hne]
      simp only [Bool.false_eq_true, if_false]
      exact ih hrest
    · rw [if_neg hg]
      exact ih hrest

/-- Entries that do not fire at all are skipped by get_action. -/
theorem get_action_skip (key : List KeyE) :
    ∀ pre rest : KeymapE, (∀ e ∈ pre, entry_matches e.1 key = false) →
      get_action (pre ++ rest) key = get_action rest key := by
  intro pre
  induction pre with
  | nil => intro rest _; rfl
  | cons e t ih =>
    intro rest h
    have he : entry_matches e.1 key = false := h e (List.mem_cons_self e t)
    have hs : scan_alts e.2 key e.1.alts = none :=
      scan_alts_of_no_match e.2 key e.1.alts he
    show get_action (e :: (t ++ rest)) key = _
    obtain ⟨cmd, act⟩ := e
    simp only [get_action, hs]
    exact ih rest fun x hx => h x (List.mem_cons_of_mem _ hx)

/-- Claim C8 does not hold as stated: with the wildcard binding iterated before
the exact binding in the reverse index, the chord Char S that exactly matches
the Save binding resolves to the instantiated wildcard template instead. -/
theorem keymap_resolution_cex :
    get_action
        [(⟨[[KeyE.charAny]]⟩, ("Insert($char)").toList),
         (⟨[[KeyE.char 'S']]⟩, ("Save").toList)] [KeyE.char 'S']
      = some ("Insert(S)").toList
    ∧ get_action
        [(⟨[[KeyE.charAny]]⟩, ("Insert($char)").toList),
         (⟨[[KeyE.char 'S']]⟩, ("Save").toList)] [KeyE.char 'S']
      ≠ some ("Save").toList := by
  decide

/-- Claim C8, amended: resolution is a pure function of the reverse index's
iteration order and the chord, so repeated lookups agree; a chord with no
exact and no wildcard match resolves to no action; an exact match resolves to
its binding's template provided no earlier-iterated entry fires on the chord
(a wildcard binding iterated earlier captures it instead, so exact-first holds
only relative to iteration order); the spec's concrete exact-match example
behaves as stated. -/
theorem keymap_resolution_amended :
    (∀ km : KeymapE, ∀ key : List KeyE, ∀ r₁ r₂ : Option (List Char),
      get_action km key = r₁ → get_action km key = r₂ → r₁ = r₂)
    ∧ (∀ km : KeymapE, ∀ key : List KeyE,
        (∀ e ∈ km, entry_matches e.1 key = false) → get_action km key = none)
    ∧ (∀ pre post : KeymapE, ∀ alts : List (List KeyE), ∀ act : List Char,
        ∀ k key : List KeyE,
        (∀ e ∈ pre, entry_matches e.1 key = false) → chord_eq k key = true →
        get_action (pre ++ (⟨k :: alts⟩, act) :: post) key = some act)
    ∧ get_action [(⟨[[KeyE.ctrl, KeyE.char 'S']]⟩, ("Save").toList)]
        [KeyE.ctrl, KeyE.char 'S'] = some ("Save").toList
    ∧ get_action [(⟨[[KeyE.ctrl, KeyE.char 'S']]⟩, ("Save").toList)]
        [KeyE.ctrl, KeyE.char 'C'] = none := by
  refine ⟨?_, ?_, ?_, by decide, by decide⟩
  · intro km key r₁ r₂ h₁ h₂
    rw [← h₁, ← h₂]
  · intro km key h
    have : km = km ++ [] := by simp
    rw [this, get_action_skip key km [] h]
    rfl
  · intro pre post alts act k key hpre hk
    rw [get_action_skip key pre _ hpre]
    simp only [get_action, scan_alts, hk, if_true]

theorem keymap_resolution_amended_witness :
    get_action ([] ++ (⟨[[KeyE.ctrl, KeyE.char 'Q']]⟩, ("Quit").toList) :: [])
        [KeyE.ctrl, KeyE.char 'Q'] = some ("Quit").toList
    ∧ get_action [(⟨[[KeyE.ctrl, KeyE.char 'S']]⟩, ("Save").toList)] [KeyE.esc] = none :=
  ⟨keymap_resolution_amended.2.2.1 [] [] [] ("Quit").toList [KeyE.ctrl, KeyE.char 'Q']
      [KeyE.ctrl, KeyE.char 'Q'] (fun e he => absurd he (List.not_mem_nil e)) (by decide),
   keymap_resolution_amended.2.1 [(⟨[[KeyE.ctrl, KeyE.char 'S']]⟩, ("Save").toList)]
      [KeyE.esc] (by decide)⟩

/-- Running the forward sentinel-skipping loop over a maximal sentinel run of
length m moves the cursor exactly past the run. -/
theorem skip_x02_f_go_run (chars : List Char) :
    ∀ m fuel : Nat, ∀ b : Buf, m ≤ fuel →
      (∀ j, b.cursor ≤ j → j < b.cursor + m → chars.getD j nul = x02) →
      b.cursor + m ≤ b.text.length →
      (b.cursor + m = b.text.length ∨ chars.getD (b.cursor + m) nul ≠ x02) →
      (skip_x02_f_go chars fuel b).cursor = b.cursor + m ∧
        (skip_x02_f_go chars fuel b).text = b.text := by
  intro m
  induction m with
  | zero =>
    intro fuel b _ _ _ hbnd
    simp only [Nat.add_zero] at hbnd ⊢
    have hcond : ¬(b.cursor < b.text.length ∧ chars.getD b.cursor nul = x02) := by
      rintro ⟨hc1, hc2⟩
      rcases hbnd with h | h
      · omega
      · exact h hc2
    cases fuel with
    | zero => exact ⟨rfl, rfl⟩
    | succ fuel =>
      rw [skip_x02_f_go, if_neg hcond]
      exact ⟨rfl, rfl⟩
  | succ m ih =>
    intro fuel b hmf hrun hlen hbnd
    cases fuel with
    | zero => omega
    | succ fuel =>
      have hcl : b.cursor < b.text.length := by omega
      have hx : chars.getD b.cursor nul = x02 := hrun b.cursor (Nat.le_refl _) (by omega)
      have hc1 : (cursor_forward b).cursor = b.cursor + 1 := by
        rw [cursor_forward_cursor, if_pos hcl]
      have ht1 : (cursor_forward b).text = b.text := cursor_forward_text b
      have harith : b.cursor + 1 + m = b.cursor + (m + 1) := by omega
      obtain ⟨ih1, ih2⟩ := ih fuel (cursor_forward b) (by omega)
        (by
          intro j hj1 hj2
          rw [hc1] at hj1 hj2
          exact hrun j (by omega) (by omega))
        (by rw [hc1, ht1, harith]; exact hlen)
        (by rw [hc1, ht1, harith]; exact hbnd)
      rw [skip_x02_f_go, if_pos ⟨hcl, hx⟩]
      rw [ih1, ih2, hc1, ht1]
      exact ⟨by omega, rfl⟩

/-- Running the backward sentinel-skipping loop over a maximal sentinel run of
length m moves the cursor exactly before the run. -/
theorem skip_x02_b_go_run (chars : List Char) :
    ∀ m fuel : Nat, ∀ b : Buf, m ≤ fuel → m ≤ b.cursor →
      (∀ j, b.cursor - m ≤ j → j < b.cursor → chars.getD j nul = x02) →
      (b.cursor - m = 0 ∨ chars.getD (b.cursor - m - 1) nul ≠ x02) →
      (skip_x02_b_go chars fuel b).cursor = b.cursor - m ∧
        (skip_x02_b_go chars fuel b).text = b.text := by
  intro m
  induction m with
  | zero =>
    intro fuel b _ _ _ hbnd
    simp only [Nat.sub_zero] at hbnd ⊢
    have hcond : ¬(0 < b.cursor ∧ chars.getD (b.cursor - 1) nul = x02) := by
      rintro ⟨hc1, hc2⟩
      rcases hbnd with h | h
      · omega
      · exact h hc2
    cases fuel with
    | zero => exact ⟨rfl, rfl⟩
    | succ fuel =>
      rw [skip_x02_b_go, if_neg hcond]
      exact ⟨rfl, rfl⟩
  | succ m ih =>
    intro fuel b hmf hmc hrun hbnd
    cases fuel with
    | zero => omega
    | succ fuel =>
      have hpos : 0 < b.cursor := by omega
      have hx : chars.getD (b.cursor - 1) nul = x02 := hrun (b.cursor - 1) (by omega) (by omega)
      have hc1 : (cursor_backward b).cursor = b.cursor - 1 := by
        rw [cursor_backward_cursor, if_pos hpos]
      have ht1 : (cursor_backward b).text = b.text := cursor_backward_text b
      have harith : b.cursor - 1 - m = b.cursor - (m + 1) := by omega
      obtain ⟨ih1, ih2⟩ := ih fuel (cursor_backward b) (by omega) (by rw [hc1]; omega)
        (by
          intro j hj1 hj2
          rw [hc1, harith] at hj1
          rw [hc1] at hj2
          exact hrun j (by omega) (by omega))
        (by rw [hc1, harith]; exact hbnd)
      rw [skip_x02_b_go, if_pos ⟨hpos, hx⟩]
      rw [ih1, ih2, hc1, ht1]
      exact ⟨by omega, rfl⟩

/-- Forward logical step across a plain character (not wide, not a tab, not a
space): exactly one raw step. -/
theorem cfa_plain (b : Buf) (hlt : b.cursor < b.text.length)
    (h1 : is_hangul (b.text.getD b.cursor nul) = false)
    (h2 : b.text.getD b.cursor nul ≠ '\t')
    (h3 : b.text.getD b.cursor nul ≠ ' ') :
    (cursor_forward_action b).cursor = b.cursor + 1 ∧
      (cursor_forward_action b).text = b.text := by
  have hc1 : (cursor_forward b).cursor = b.cursor + 1 := by
    rw [cursor_forward_cursor, if_pos hlt]
  have ht1 : (cursor_forward b).text = b.text := cursor_forward_text b
  simp only [cursor_forward_action, hc1, ht1, Nat.add_sub_cancel]
  rw [if_pos (Nat.succ_pos b.cursor)]
  simp only [h1, Bool.false_eq_true, if_false]
  rw [if_neg h2, if_neg h3]
  exact ⟨hc1, ht1⟩

/-- Forward logical step across a wide glyph with a character after it: two raw
steps. -/
theorem cfa_hangul (b : Buf) (hlt2 : b.cursor + 1 < b.text.length)
    (hh : is_hangul (b.text.getD b.cursor nul) = true) :
    (cursor_forward_action b).cursor = b.cursor + 2 ∧
      (cursor_forward_action b).text = b.text := by
  have hlt : b.cursor < b.text.length := by omega
  have hc1 : (cursor_forward b).cursor = b.cursor + 1 := by
    rw [cursor_forward_cursor, if_pos hlt]
  have ht1 : (cursor_forward b).text = b.text := cursor_forward_text b
  have hc2 : (cursor_forward (cursor_forward b)).cursor = b.cursor + 2 := by
    rw [cursor_forward_cursor, ht1, hc1, if_pos hlt2]
  have ht2 : (cursor_forward (cursor_forward b)).text = b.text := by
    rw [cursor_forward_text, ht1]
  simp only [cursor_forward_action, hc1, ht1, Nat.add_sub_cancel]
  rw [if_pos (Nat.succ_pos b.cursor)]
  simp only [hh, if_true]
  exact ⟨hc2, ht2⟩

/-- Forward logical step across a tab followed by a maximal run of k
continuation sentinels (k at least 1): lands one past the run (the branch
steps once unconditionally and then drains the rest of the run). -/
theorem cfa_tab (b : Buf) (ht : b.text.getD b.cursor nul = '\t')
    (k : Nat) (hk : 1 ≤ k)
    (hrun : ∀ j, b.cursor + 1 ≤ j → j ≤ b.cursor + k → b.text.getD j nul = x02)
    (hin : b.cursor + k < b.text.length)
    (hbnd : b.cursor + k + 1 = b.text.length ∨ b.text.getD (b.cursor + k + 1) nul ≠ x02) :
    (cursor_forward_action b).cursor = b.cursor + k + 1 ∧
      (cursor_forward_action b).text = b.text := by
  have hlt : b.cursor < b.text.length := by omega
  have hc1 : (cursor_forward b).cursor = b.cursor + 1 := by
    rw [cursor_forward_cursor, if_pos hlt]
  have ht1 : (cursor_forward b).text = b.text := cursor_forward_text b
  have hlt2 : b.cursor + 1 < b.text.length := by omega
  have hc2 : (cursor_forward (cursor_forward b)).cursor = b.cursor + 2 := by
    rw [cursor_forward_cursor, ht1, hc1, if_pos hlt2]
  have ht2 : (cursor_forward (cursor_forward b)).text = b.text := by
    rw [cursor_forward_text, ht1]
  have hhang : is_hangul '\t' = false := by decide
  simp only [cursor_forward_action, hc1, ht1, Nat.add_sub_cancel]
  rw [if_pos (Nat.succ_pos b.cursor), ht]
  simp only [hhang, Bool.false_eq_true, if_false, eq_self_iff_true, if_true]
  rw [skip_x02_f, ht2, hc2]
  have harith : b.cursor + 2 + (k - 1) = b.cursor + k + 1 := by omega
  obtain ⟨hr1, hr2⟩ := skip_x02_f_go_run b.text (k - 1)
    (b.text.length - (b.cursor + 2)) (cursor_forward (cursor_forward b))
    (by omega)
    (by
      intro j hj1 hj2
      rw [hc2] at hj1 hj2
      exact hrun j (by omega) (by omega))
    (by rw [hc2, ht2, harith]; omega)
    (by rw [hc2, ht2, harith]; exact hbnd)
  rw [hr1, hr2, hc2, ht2]
  exact ⟨by omega, rfl⟩

/-- Backward logical step onto a plain left context (the character two before
the cursor is not wide, not a sentinel, not a space, or the cursor is at
index 1): exactly one raw step back. -/
theorem cba_plain (b : Buf) (hpos : 0 < b.cursor)
    (h : b.cursor = 1 ∨ (is_hangul (b.text.getD (b.cursor - 2) nul) = false ∧
      b.text.getD (b.cursor - 2) nul ≠ x02 ∧ b.text.getD (b.cursor - 2) nul ≠ ' ')) :
    (cursor_backward_action b).cursor = b.cursor - 1 ∧
      (cursor_backward_action b).text = b.text := by
  have hc1 : (cursor_backward b).cursor = b.cursor - 1 := by
    rw [cursor_backward_cursor, if_pos hpos]
  have ht1 : (cursor_backward b).text = b.text := cursor_backward_text b
  simp only [cursor_backward_action, hc1, ht1]
  rcases h with h1 | ⟨ha, hb, hc⟩
  · rw [if_neg (by omega : ¬0 < b.cursor - 1)]
    exact ⟨hc1, ht1⟩
  · by_cases hp : 0 < b.cursor - 1
    · rw [if_pos hp]
      have hsub : b.cursor - 1 - 1 = b.cursor - 2 := by omega
      rw [hsub]
      simp only [ha, Bool.false_eq_true, if_false]
      rw [if_neg hb, if_neg hc]
      exact ⟨hc1, ht1⟩
    · rw [if_neg hp]
      exact ⟨hc1, ht1⟩

/-- Backward logical step across a wide glyph (the character two before the
cursor is wide): two raw steps back. -/
theorem cba_hangul (b : Buf) (h2 : 2 ≤ b.cursor)
    (hh : is_hangul (b.text.getD (b.cursor - 2) nul) = true) :
    (cursor_backward_action b).cursor = b.cursor - 2 ∧
      (cursor_backward_action b).text = b.text := by
  have hpos : 0 < b.cursor := by omega
  have hc1 : (cursor_backward b).cursor = b.cursor - 1 := by
    rw [cursor_backward_cursor, if_pos hpos]
  have ht1 : (cursor_backward b).text = b.text := cursor_backward_text b
  have hc2 : (cursor_backward (cursor_backward b)).cursor = b.cursor - 2 := by
    rw [cursor_backward_cursor, hc1, if_pos (by omega)]
    omega
  have ht2 : (cursor_backward (cursor_backward b)).text = b.text := by
    rw [cursor_backward_text, ht1]
  simp only [cursor_backward_action, hc1, ht1]
  rw [if_pos (by omega : 0 < b.cursor - 1)]
  have hsub : b.cursor - 1 - 1 = b.cursor - 2 := by omega
  rw [hsub]
  simp only [hh, if_true]
  exact ⟨hc2, ht2⟩

/-- Backward logical step across a maximal run of k continuation sentinels
(k at least 2) whose predecessor is not a sentinel: the branch drains the run
and then steps once more, landing before the predecessor. -/
theorem cba_x02run (b : Buf) (k : Nat) (hk : 2 ≤ k) (hjk : k + 1 ≤ b.cursor)
    (hrun : ∀ j, b.cursor - k ≤ j → j < b.cursor → b.text.getD j nul = x02)
    (htab : b.text.getD (b.cursor - k - 1) nul ≠ x02) :
    (cursor_backward_action b).cursor = b.cursor - k - 1 ∧
      (cursor_backward_action b).text = b.text := by
  have hpos : 0 < b.cursor := by omega
  have hc1 : (cursor_backward b).cursor = b.cursor - 1 := by
    rw [cursor_backward_cursor, if_pos hpos]
  have ht1 : (cursor_backward b).text = b.text := cursor_backward_text b
  have hx2 : b.text.getD (b.cursor - 2) nul = x02 := hrun (b.cursor - 2) (by omega) (by omega)
  have hh : is_hangul x02 = false := by decide
  simp only [cursor_backward_action, hc1, ht1]
  rw [if_pos (by omega : 0 < b.cursor - 1)]
  have hsub : b.cursor - 1 - 1 = b.cursor - 2 := by omega
  rw [hsub, hx2]
  simp only [hh, Bool.false_eq_true, if_false, eq_self_iff_true, if_true]
  rw [skip_x02_b, hc1]
  obtain ⟨hr1, hr2⟩ := skip_x02_b_go_run b.text (k - 1) (b.cursor - 1) (cursor_backward b)
    (by omega)
    (by rw [hc1]; omega)
    (by
      intro j hj1 hj2
      rw [hc1] at hj1 hj2
      exact hrun j (by omega) (by omega))
    (by
      rw [hc1]
      right
      have : b.cursor - 1 - (k - 1) - 1 = b.cursor - k - 1 := by omega
      rw [this]
      exact htab)
  rw [cursor_backward_cursor, cursor_backward_text, hr1, hr2, hc1, ht1]
  rw [if_pos (by omega : 0 < b.cursor - 1 - (k - 1))]
  exact ⟨by omega, rfl⟩

/-- Claim C5 does not hold as stated: a tab whose continuation run has length
exactly one (as insert_tab produces two columns before a tab stop, here a tab
inserted at column 2 with tab_size 4) is crossed asymmetrically.  From index 2
of the document a b tab sentinel, cursor_forward_action lands at 4 (tab branch
steps once unconditionally, then drains the empty remainder of the run), but
cursor_backward_action from 4 stops at 3, because the character before the new
position is the tab itself, not a sentinel. -/
theorem motion_roundtrip_cex :
    (cursor_forward_action
        ⟨['a', 'b', '\t', x02], 2, ⟨0, 0⟩, 80, 24, none, true, ⟨4, .tab⟩⟩).cursor = 4
    ∧ (cursor_backward_action (cursor_forward_action
        ⟨['a', 'b', '\t', x02], 2, ⟨0, 0⟩, 80, 24, none, true, ⟨4, .tab⟩⟩)).cursor = 3
    ∧ (3 : Nat) ≠ 2 := by
  decide

/-- Claim C5, amended: cursor_forward_action followed by cursor_backward_action
returns the cursor to its original index (a) when neither the crossed
character nor the character before the starting position is a space, a tab, a
sentinel or a wide glyph, (b) when the step crosses a wide glyph that is
followed by another character, and (c) when the step crosses a tab whose
maximal continuation run has length at least two.  A tab run of length one is
crossed asymmetrically, and soft-tab space runs can also break the round
trip. -/
theorem motion_roundtrip_amended (b : Buf) (hlt : b.cursor < b.text.length) :
    ((is_hangul (b.text.getD b.cursor nul) = false ∧ b.text.getD b.cursor nul ≠ '\t'
        ∧ b.text.getD b.cursor nul ≠ ' '
        ∧ (b.cursor = 0 ∨ (is_hangul (b.text.getD (b.cursor - 1) nul) = false
            ∧ b.text.getD (b.cursor - 1) nul ≠ x02 ∧ b.text.getD (b.cursor - 1) nul ≠ ' '))) →
      (cursor_backward_action (cursor_forward_action b)).cursor = b.cursor)
    ∧ ((is_hangul (b.text.getD b.cursor nul) = true ∧ b.cursor + 1 < b.text.length) →
      (cursor_backward_action (cursor_forward_action b)).cursor = b.cursor)
    ∧ (∀ k : Nat, 2 ≤ k → b.text.getD b.cursor nul = '\t' →
        (∀ j, b.cursor + 1 ≤ j → j ≤ b.cursor + k → b.text.getD j nul = x02) →
        b.cursor + k < b.text.length →
        (b.cursor + k + 1 = b.text.length ∨ b.text.getD (b.cursor + k + 1) nul ≠ x02) →
      (cursor_backward_action (cursor_forward_action b)).cursor = b.cursor) := by
  refine ⟨?_, ?_, ?_⟩
  · rintro ⟨h1, h2, h3, h4⟩
    obtain ⟨hf1, hf2⟩ := cfa_plain b hlt h1 h2 h3
    obtain ⟨hb1, -⟩ := cba_plain (cursor_forward_action b)
      (by rw [hf1]; omega)
      (by
        rcases h4 with h0 | hctx
        · left
          rw [hf1, h0]
        · right
          rw [hf1, hf2]
          have : b.cursor + 1 - 2 = b.cursor - 1 := by omega
          rw [this]
          exact hctx)
    rw [hb1, hf1]
    omega
  · rintro ⟨hh, hlt2⟩
    obtain ⟨hf1, hf2⟩ := cfa_hangul b hlt2 hh
    obtain ⟨hb1, -⟩ := cba_hangul (cursor_forward_action b)
      (by rw [hf1]; omega)
      (by
        rw [hf1, hf2]
        have : b.cursor + 2 - 2 = b.cursor := by omega
        rw [this]
        exact hh)
    rw [hb1, hf1]
    omega
  · intro k hk ht hrun hin hbnd
    obtain ⟨hf1, hf2⟩ := cfa_tab b ht k (by omega) hrun hin hbnd
    obtain ⟨hb1, -⟩ := cba_x02run (cursor_forward_action b) k hk
      (by rw [hf1]; omega)
      (by
        intro j hj1 hj2
        rw [hf1] at hj1 hj2
        rw [hf2]
        exact hrun j (by omega) (by omega))
      (by
        rw [hf1, hf2]
        have : b.cursor + k + 1 - k - 1 = b.cursor := by omega
        rw [this, ht]
        decide)
    rw [hb1, hf1]
    omega

theorem motion_roundtrip_amended_witness :
    ((is_hangul ((['a', 'b'] : List Char).getD 0 nul) = false
        ∧ (['a', 'b'] : List Char).getD 0 nul ≠ '\t'
        ∧ (['a', 'b'] : List Char).getD 0 nul ≠ ' '
        ∧ ((0 : Nat) = 0 ∨ (is_hangul ((['a', 'b'] : List Char).getD (0 - 1) nul) = false
            ∧ (['a', 'b'] : List Char).getD (0 - 1) nul ≠ x02
            ∧ (['a', 'b'] : List Char).getD (0 - 1) nul ≠ ' '))) →
      (cursor_backward_action (cursor_forward_action
        ⟨['a', 'b'], 0, ⟨0, 0⟩, 80, 24, none, true, ⟨4, .tab⟩⟩)).cursor = 0)
    ∧ ((cursor_backward_action (cursor_forward_action
        ⟨['한', x01, 'c'], 0, ⟨0, 0⟩, 80, 24, none, true, ⟨4, .tab⟩⟩)).cursor = 0)
    ∧ ((cursor_backward_action (cursor_forward_action
        ⟨['\t', x02, x02, x02, 'z'], 0, ⟨0, 0⟩, 80, 24, none, true, ⟨4, .tab⟩⟩)).cursor = 0) :=
  ⟨(motion_roundtrip_amended
      ⟨['a', 'b'], 0, ⟨0, 0⟩, 80, 24, none, true, ⟨4, .tab⟩⟩ (by decide)).1,
   (motion_roundtrip_amended
      ⟨['한', x01, 'c'], 0, ⟨0, 0⟩, 80, 24, none, true, ⟨4, .tab⟩⟩ (by decide)).2.1
      ⟨by decide, by decide⟩,
   (motion_roundtrip_amended
      ⟨['\t', x02, x02, x02, 'z'], 0, ⟨0, 0⟩, 80, 24, none, true, ⟨4, .tab⟩⟩ (by decide)).2.2
      3 (by decide) (by decide)
      (by
        intro j hj1 hj2
        interval_cases j <;> decide)
      (by decide) (by decide)⟩

/-- The accumulator of the row-start scan never exceeds the scanned range. -/
theorem row_start_le (text : List Char) (i : Nat) :
    row_start text i ≤ min i text.length := by
  unfold row_start
  have hgen : ∀ (l : List Nat) (s : Nat), (∀ j ∈ l, j + 1 ≤ min i text.length) →
      s ≤ min i text.length →
      l.foldl (fun s j => if text.getD j nul = '\n' then j + 1 else s) s
        ≤ min i text.length := by
    intro l
    induction l with
    | nil => intro s _ hs; exact hs
    | cons j t ih =>
      intro s hj hs
      simp only [List.foldl_cons]
      refine ih _ (fun x hx => hj x (List.mem_cons_of_mem _ hx)) ?_
      split
      · exact hj j (List.mem_cons_self j t)
      · exact hs
  refine hgen _ 0 ?_ (Nat.zero_le _)
  intro j hj
  have := List.mem_range.mp hj
  omega

theorem first_nl_lt : ∀ l : List Char, ∀ j : Nat, first_nl l = some j → j < l.length := by
  intro l
  induction l with
  | nil => intro j h; exact absurd h (by simp [first_nl])
  | cons c rest ih =>
    intro j h
    simp only [first_nl] at h
    split at h
    · cases h
      simp
    · rw [Option.map_eq_some'] at h
      obtain ⟨j', hj', rfl⟩ := h
      have := ih j' hj'
      simp only [List.length_cons]
      omega

theorem first_nl_none_count : ∀ l : List Char, first_nl l = none → l.count '\n' = 0 := by
  intro l
  induction l with
  | nil => intro _; rfl
  | cons c rest ih =>
    intro h
    simp only [first_nl] at h
    split at h
    · cases h
    · rename_i hc
      rw [Option.map_eq_none'] at h
      rw [List.count_cons, ih h]
      simp only [Nat.zero_add]
      have : ¬(c == '\n') = true := by
        simp only [beq_iff_eq]
        exact hc
      simp [this]

/-- The line starting at i ends inside the text. -/
theorem row_len_add_le (text : List Char) (i : Nat) (h : i ≤ text.length) :
    i + row_len text i ≤ text.length := by
  unfold row_len
  cases hfn : first_nl (text.drop i) with
  | none => simp only; omega
  | some j =>
    simp only
    have := first_nl_lt (text.drop i) j hfn
    rw [List.length_drop] at this
    omega

theorem cursor_forward_pres (b : Buf) (h : b.cursor ≤ b.text.length) :
    (cursor_forward b).text = b.text ∧ (cursor_forward b).cursor ≤ b.text.length := by
  refine ⟨cursor_forward_text b, ?_⟩
  rw [cursor_forward_cursor]
  split <;> omega

theorem cursor_backward_pres (b : Buf) (h : b.cursor ≤ b.text.length) :
    (cursor_backward b).text = b.text ∧ (cursor_backward b).cursor ≤ b.text.length := by
  refine ⟨cursor_backward_text b, ?_⟩
  rw [cursor_backward_cursor]
  split <;> omega

theorem skip_x02_f_go_pres (chars : List Char) :
    ∀ fuel : Nat, ∀ b : Buf, b.cursor ≤ b.text.length →
      (skip_x02_f_go chars fuel b).text = b.text ∧
        (skip_x02_f_go chars fuel b).cursor ≤ b.text.length := by
  intro fuel
  induction fuel with
  | zero => intro b h; exact ⟨rfl, h⟩
  | succ fuel ih =>
    intro b h
    rw [skip_x02_f_go]
    split
    · obtain ⟨hf1, hf2⟩ := cursor_forward_pres b h
      obtain ⟨ih1, ih2⟩ := ih (cursor_forward b) (by rw [hf1]; exact hf2)
      rw [ih1, hf1]
      exact ⟨rfl, by rw [hf1] at ih2; exact ih2⟩
    · exact ⟨rfl, h⟩

theorem skip_spaces_f_go_pres (chars : List Char) (t : Nat) :
    ∀ fuel : Nat, ∀ b : Buf, b.cursor ≤ b.text.length →
      (skip_spaces_f_go chars t fuel b).text = b.text ∧
        (skip_spaces_f_go chars t fuel b).cursor ≤ b.text.length := by
  intro fuel
  induction fuel with
  | zero => intro b h; exact ⟨rfl, h⟩
  | succ fuel ih =>
    intro b h
    rw [skip_spaces_f_go]
    split
    · obtain ⟨hf1, hf2⟩ := cursor_forward_pres b h
      obtain ⟨ih1, ih2⟩ := ih (cursor_forward b) (by rw [hf1]; exact hf2)
      rw [ih1, hf1]
      exact ⟨rfl, by rw [hf1] at ih2; exact ih2⟩
    · exact ⟨rfl, h⟩

theorem skip_x02_b_go_pres (chars : List Char) :
    ∀ fuel : Nat, ∀ b : Buf, b.cursor ≤ b.text.length →
      (skip_x02_b_go chars fuel b).text = b.text ∧
        (skip_x02_b_go chars fuel b).cursor ≤ b.text.length := by
  intro fuel
  induction fuel with
  | zero => intro b h; exact ⟨rfl, h⟩
  | succ fuel ih =>
    intro b h
    rw [skip_x02_b_go]
    split
    · obtain ⟨hf1, hf2⟩ := cursor_backward_pres b h
      obtain ⟨ih1, ih2⟩ := ih (cursor_backward b) (by rw [hf1]; exact hf2)
      rw [ih1, hf1]
      exact ⟨rfl, by rw [hf1] at ih2; exact ih2⟩
    · exact ⟨rfl, h⟩

theorem skip_spaces_b_go_pres (chars : List Char) (t : Nat) :
    ∀ fuel : Nat, ∀ b : Buf, b.cursor ≤ b.text.length →
      (skip_spaces_b_go chars t fuel b).text = b.text ∧
        (skip_spaces_b_go chars t fuel b).cursor ≤ b.text.length := by
  intro fuel
  induction fuel with
  | zero => intro b h; exact ⟨rfl, h⟩
  | succ fuel ih =>
    intro b h
    rw [skip_spaces_b_go]
    split
    · obtain ⟨hf1, hf2⟩ := cursor_backward_pres b h
      obtain ⟨ih1, ih2⟩ := ih (cursor_backward b) (by rw [hf1]; exact hf2)
      rw [ih1, hf1]
      exact ⟨rfl, by rw [hf1] at ih2; exact ih2⟩
    · exact ⟨rfl, h⟩

theorem cursor_forward_action_pres (b : Buf) (h : b.cursor ≤ b.text.length) :
    (cursor_forward_action b).text = b.text ∧
      (cursor_forward_action b).cursor ≤ b.text.length := by
  obtain ⟨hf1, hf2⟩ := cursor_forward_pres b h
  obtain ⟨hffa, hffb⟩ := cursor_forward_pres (cursor_forward b)
    (le_of_le_of_eq hf2 (congrArg List.length hf1).symm)
  have hffb' : (cursor_forward (cursor_forward b)).cursor ≤ b.text.length :=
    le_of_le_of_eq hffb (congrArg List.length hf1)
  have hffa' : (cursor_forward (cursor_forward b)).text = b.text := hffa.trans hf1
  simp only [cursor_forward_action]
  split
  · split
    · exact ⟨hffa', hffb'⟩
    · split
      · rw [skip_x02_f]
        obtain ⟨hs1, hs2⟩ := skip_x02_f_go_pres (cursor_forward b).text
          ((cursor_forward (cursor_forward b)).text.length -
            (cursor_forward (cursor_forward b)).cursor)
          (cursor_forward (cursor_forward b))
          (le_of_le_of_eq hffb' (congrArg List.length hffa').symm)
        exact ⟨hs1.trans hffa', le_of_le_of_eq hs2 (congrArg List.length hffa')⟩
      · split
        · split
          · rw [skip_spaces_f]
            obtain ⟨hs1, hs2⟩ := skip_spaces_f_go_pres (cursor_forward b).text
              (cursor_forward b).setting.tabSize
              ((cursor_forward b).text.length - (cursor_forward b).cursor)
              (cursor_forward b) (le_of_le_of_eq hf2 (congrArg List.length hf1).symm)
            exact ⟨hs1.trans hf1, le_of_le_of_eq hs2 (congrArg List.length hf1)⟩
          · exact ⟨hf1, hf2⟩
        · exact ⟨hf1, hf2⟩
  · exact ⟨hf1, hf2⟩

theorem cursor_backward_action_pres (b : Buf) (h : b.cursor ≤ b.text.length) :
    (cursor_backward_action b).text = b.text ∧
      (cursor_backward_action b).cursor ≤ b.text.length := by
  obtain ⟨hf1, hf2⟩ := cursor_backward_pres b h
  obtain ⟨hbba, hbbb⟩ := cursor_backward_pres (cursor_backward b)
    (le_of_le_of_eq hf2 (congrArg List.length hf1).symm)
  have hbbb' : (cursor_backward (cursor_backward b)).cursor ≤ b.text.length :=
    le_of_le_of_eq hbbb (congrArg List.length hf1)
  have hbba' : (cursor_backward (cursor_backward b)).text = b.text := hbba.trans hf1
  simp only [cursor_backward_action]
  split
  · split
    · exact ⟨hbba', hbbb'⟩
    · split
      · rw [skip_x02_b]
        obtain ⟨hs1, hs2⟩ := skip_x02_b_go_pres (cursor_backward b).text
          (cursor_backward b).cursor (cursor_backward b)
          (le_of_le_of_eq hf2 (congrArg List.length hf1).symm)
        have hs1' : (skip_x02_b_go (cursor_backward b).text (cursor_backward b).cursor
            (cursor_backward b)).text = b.text := hs1.trans hf1
        obtain ⟨hc1, hc2⟩ := cursor_backward_pres
          (skip_x02_b_go (cursor_backward b).text (cursor_backward b).cursor
            (cursor_backward b))
          (le_of_le_of_eq (le_of_le_of_eq hs2 (congrArg List.length hf1))
            (congrArg List.length hs1').symm)
        exact ⟨hc1.trans hs1', le_of_le_of_eq hc2 (congrArg List.length hs1')⟩
      · split
        · split
          · rw [skip_spaces_b]
            obtain ⟨hs1, hs2⟩ := skip_spaces_b_go_pres (cursor_backward b).text
              (cursor_backward b).setting.tabSize (cursor_backward b).cursor
              (cursor_backward b) (le_of_le_of_eq hf2 (congrArg List.length hf1).symm)
            exact ⟨hs1.trans hf1, le_of_le_of_eq hs2 (congrArg List.length hf1)⟩
          · exact ⟨hf1, hf2⟩
        · exact ⟨hf1, hf2⟩
  · exact ⟨hf1, hf2⟩

theorem cursor_up_pres (b : Buf) (h : b.cursor ≤ b.text.length) :
    (cursor_up b).text = b.text ∧ (cursor_up b).cursor ≤ b.text.length := by
  unfold cursor_up
  split
  · exact ⟨rfl, h⟩
  · dsimp only
    refine ⟨rfl, ?_⟩
    have h1 := row_start_le b.text (row_start b.text b.cursor - 1)
    have h2 := row_len_add_le b.text (row_start b.text (row_start b.text b.cursor - 1))
      (by omega)
    have h3 : min (get_col b.text b.cursor)
        (row_len b.text (row_start b.text (row_start b.text b.cursor - 1)))
        ≤ row_len b.text (row_start b.text (row_start b.text b.cursor - 1)) :=
      Nat.min_le_right _ _
    omega

theorem cursor_down_pres (b : Buf) (h : b.cursor ≤ b.text.length) :
    (cursor_down b).text = b.text ∧ (cursor_down b).cursor ≤ b.text.length := by
  unfold cursor_down
  split
  · exact ⟨rfl, h⟩
  · rename_i hne
    dsimp only
    refine ⟨rfl, ?_⟩
    cases hfn : first_nl (b.text.drop b.cursor) with
    | none =>
      exfalso
      apply hne
      unfold row_cnt
      have hdrop : (b.text.drop b.cursor).count '\n' = 0 := first_nl_none_count _ hfn
      have hsplit : b.text.count '\n'
          = (b.text.take b.cursor).count '\n' + (b.text.drop b.cursor).count '\n' := by
        conv_lhs => rw [← List.take_append_drop b.cursor b.text]
        rw [List.count_append]
      rw [hsplit, hdrop]
      omega
    | some j =>
      have hj := first_nl_lt _ j hfn
      rw [List.length_drop] at hj
      have hre : row_end b.text b.cursor = b.cursor + j := by
        unfold row_end
        rw [hfn]
      have hc1 : b.cursor + j + 1 ≤ b.text.length := by omega
      have h2 := row_len_add_le b.text (row_end b.text b.cursor + 1) (by omega)
      have h3 : min (get_col b.text b.cursor) (row_len b.text (row_end b.text b.cursor + 1))
          ≤ row_len b.text (row_end b.text b.cursor + 1) := Nat.min_le_right _ _
      omega

/-- The cursor motions of claim C4. -/
inductive MotionE where
  | up | down | fwd | bwd | fwdA | bwdA
deriving DecidableEq, Repr

/-- Dispatch of the six motions onto the buffer operations, as the CursorUp,
CursorDown, CursorForward and CursorBackward actions invoke them (the action
names route to the raw step or to the _action variant respectively). -/
def apply_motion : MotionE → Buf → Buf
  | .up, b => cursor_up b
  | .down, b => cursor_down b
  | .fwd, b => cursor_forward b
  | .bwd, b => cursor_backward b
  | .fwdA, b => cursor_forward_action b
  | .bwdA, b => cursor_backward_action b

theorem apply_motion_pres (m : MotionE) (b : Buf) (h : b.cursor ≤ b.text.length) :
    (apply_motion m b).text = b.text ∧ (apply_motion m b).cursor ≤ b.text.length := by
  cases m with
  | up => exact cursor_up_pres b h
  | down => exact cursor_down_pres b h
  | fwd => exact cursor_forward_pres b h
  | bwd => exact cursor_backward_pres b h
  | fwdA => exact cursor_forward_action_pres b h
  | bwdA => exact cursor_backward_action_pres b h

theorem foldl_motion_pres (ms : List MotionE) :
    ∀ b : Buf, b.cursor ≤ b.text.length →
      (ms.foldl (fun s m => apply_motion m s) b).text = b.text ∧
        (ms.foldl (fun s m => apply_motion m s) b).cursor ≤ b.text.length := by
  induction ms with
  | nil => intro b h; exact ⟨rfl, h⟩
  | cons m t ih =>
    intro b h
    simp only [List.foldl_cons]
    obtain ⟨hm1, hm2⟩ := apply_motion_pres m b h
    obtain ⟨ih1, ih2⟩ := ih (apply_motion m b) (by rw [hm1]; exact hm2)
    rw [hm1] at ih1 ih2
    exact ⟨ih1, ih2⟩

/-- Claim C4: starting from any coherent state, every sequence of the six
cursor motions keeps the cursor inside the document (the index is a natural
number, so the lower bound is automatic, and motions never change the text);
cursor_up with the cursor on row 0 and cursor_down with the cursor on the last
row leave the buffer state entirely unchanged. -/
theorem cursor_clamp (ms : List MotionE) (b : Buf) (h : b.cursor ≤ b.text.length) :
    (ms.foldl (fun s m => apply_motion m s) b).text = b.text
    ∧ (ms.foldl (fun s m => apply_motion m s) b).cursor
        ≤ (ms.foldl (fun s m => apply_motion m s) b).text.length
    ∧ ((b.text.take b.cursor).count '\n' = 0 → cursor_up b = b)
    ∧ ((b.text.take b.cursor).count '\n' = b.text.count '\n' → cursor_down b = b) := by
  obtain ⟨hp1, hp2⟩ := foldl_motion_pres ms b h
  refine ⟨hp1, by rw [hp1]; exact hp2, ?_, ?_⟩
  · intro h0
    unfold cursor_up row_cnt
    rw [h0]
    simp
  · intro hlast
    unfold cursor_down row_cnt
    rw [hlast]
    simp

/-- A concrete coherent buffer used to instantiate the cursor-clamp theorem. -/
def c4buf : Buf := ⟨['a', '\n', '\t', x02, x02, x02], 0, ⟨0, 0⟩, 80, 24, none, true, ⟨4, .tab⟩⟩

/-- A concrete motion sequence used to instantiate the cursor-clamp theorem. -/
def c4ms : List MotionE := [.fwdA, .up, .down, .bwdA]

theorem cursor_clamp_witness :
    (c4ms.foldl (fun s m => apply_motion m s) c4buf).text = c4buf.text
    ∧ (c4ms.foldl (fun s m => apply_motion m s) c4buf).cursor
        ≤ (c4ms.foldl (fun s m => apply_motion m s) c4buf).text.length
    ∧ ((c4buf.text.take c4buf.cursor).count '\n' = 0 → cursor_up c4buf = c4buf)
    ∧ ((c4buf.text.take c4buf.cursor).count '\n' = c4buf.text.count '\n' →
        cursor_down c4buf = c4buf) :=
  cursor_clamp c4ms c4buf (by decide)

end ZE
